import Mathlib

/-!
Verification of the DebateCraft turn pipeline.

This file gives a shallow embedding, in Lean 4, of the core logic of the
DebateCraft repository and proves (or refutes) the behavioural claims made
about it.  The embedded code comes from:

* the Debate page component (client): incremental sentence segmentation of
  the streamed answer (regex match on the buffer, trimming, final flush),
  the audio playback queue (queueAudio, playNextInQueue, stopAudio), the
  optimistic conversation update and its rollback, and the client SSE line
  consumer;
* the debate-continue edge function (server): the dual Pinecone query, the
  RAG prompt assembly, the SSE forwarder that accumulates fullAnswer, and
  the background session-memory upserts;
* the debate-start edge function: initial turn-index assignment.

Numeric payloads that the code merely passes through (embedding vectors,
relevance scores) are modelled as lists of integers; text is modelled as
List Char where character-level reasoning is needed and as String where the
code only concatenates.
-/

namespace DebateCraft

/-! ## Character classes used by the client sentence regex and String.trim

The client matches the buffer against the JavaScript regex
 (caret)(.*?[.!?](backslash-s or dollar)) and trims each extracted
sentence.  The class backslash-s and the trim set are the JavaScript
white-space characters; dot does not match line terminators. -/

/-- Terminal punctuation recognised by the sentence regex: period, bang,
question mark. -/
def isTerm (c : Char) : Bool := c == '.' || c == '!' || c == '?'

/-- Code points of the JavaScript white-space class (the set matched by
backslash-s and removed by String.prototype.trim). -/
def jsSpaceCodes : List Nat :=
  [0x9, 0xa, 0xb, 0xc, 0xd, 0x20, 0xa0, 0x1680,
   0x2000, 0x2001, 0x2002, 0x2003, 0x2004, 0x2005, 0x2006, 0x2007,
   0x2008, 0x2009, 0x200a, 0x2028, 0x2029, 0x202f, 0x205f, 0x3000, 0xfeff]

/-- JavaScript white-space test. -/
def isJsSpace (c : Char) : Bool := jsSpaceCodes.contains c.toNat

/-- JavaScript line terminators, which the regex dot does not match. -/
def isLineTerm (c : Char) : Bool :=
  c.toNat == 0xa || c.toNat == 0xd || c.toNat == 0x2028 || c.toNat == 0x2029

/-- Lazy anchored match of the sentence regex against the buffer: the
shortest prefix consisting of non-line-terminator characters followed by a
terminal punctuation character followed by a white-space character or the
end of the buffer.  Returns the matched text (including the trailing space
when one was consumed) and the remaining buffer.  Mirrors the backtracking
order of the JavaScript engine: at each position the engine first tries to
close the match on a terminal character and otherwise lets the lazy dot-star
consume it. -/
def matchSentence : List Char → Option (List Char × List Char)
  | [] => none
  | c :: rest =>
    if isTerm c then
      match rest with
      | [] => some ([c], [])
      | d :: rest2 =>
        if isJsSpace d then some ([c, d], rest2)
        else
          match matchSentence rest with
          | some (m, r) => some (c :: m, r)
          | none => none
    else if isLineTerm c then none
    else
      match matchSentence rest with
      | some (m, r) => some (c :: m, r)
      | none => none

/-- JavaScript String.prototype.trim on a character list: drop white space
from both ends. -/
def trimChars (l : List Char) : List Char :=
  ((l.dropWhile isJsSpace).reverse.dropWhile isJsSpace).reverse

/-- Non-white-space test, used to state which characters the segmenter is
guaranteed to preserve. -/
def notSpace (c : Char) : Bool := !(isJsSpace c)

/-! ## The client sentence segmenter

State of the streaming loop in handleSendMessage: the full text received so
far, the carry-over sentence buffer, and the sentences handed to playTTS, in
order. -/

structure SegState where
  fullText : List Char
  buffer : List Char
  emitted : List (List Char)
deriving DecidableEq

/-- Initial segmenter state at stream start. -/
def initSeg : SegState := ⟨[], [], []⟩

/-- Processing of one incremental fullText event: compute the newly appended
suffix by length difference, append it to the buffer, run the sentence regex
once, and if it matches remove the matched text from the buffer and emit it
trimmed (when non-empty). -/
def segStep (st : SegState) (newFull : List Char) : SegState :=
  match matchSentence (st.buffer ++ newFull.drop st.fullText.length) with
  | some (m, r) =>
      { fullText := newFull, buffer := r,
        emitted := if trimChars m = [] then st.emitted else st.emitted ++ [trimChars m] }
  | none =>
      { fullText := newFull, buffer := st.buffer ++ newFull.drop st.fullText.length,
        emitted := st.emitted }

/-- Feed a stream of appended deltas: each incremental event carries the
previous full text extended by its delta, which is how the server produces
the fullText field. -/
def runDeltas : SegState → List (List Char) → SegState
  | st, [] => st
  | st, d :: ds => runDeltas (segStep st (st.fullText ++ d)) ds

/-- End-of-stream flush: any trimmed remainder of the buffer is emitted as a
final sentence. -/
def segFlush (st : SegState) : List (List Char) :=
  if trimChars st.buffer = [] then st.emitted else st.emitted ++ [trimChars st.buffer]

theorem matchSentence_append :
    ∀ l m r, matchSentence l = some (m, r) → m ++ r = l := by
  intro l
  induction l with
  | nil => intro m r h; simp [matchSentence] at h
  | cons c rest ih =>
    intro m r h
    unfold matchSentence at h
    by_cases hterm : isTerm c
    · simp only [hterm, if_true] at h
      cases rest with
      | nil =>
        simp only [Option.some.injEq, Prod.mk.injEq] at h
        obtain ⟨hm, hr⟩ := h
        subst hm; subst hr; rfl
      | cons d rest2 =>
        by_cases hsp : isJsSpace d
        · simp only [hsp, if_true, Option.some.injEq, Prod.mk.injEq] at h
          obtain ⟨hm, hr⟩ := h
          subst hm; subst hr; rfl
        · simp only [hsp, if_false, Bool.false_eq_true] at h
          cases hrec : matchSentence (d :: rest2) with
          | none => rw [hrec] at h; simp at h
          | some p =>
            obtain ⟨m0, r0⟩ := p
            rw [hrec] at h
            simp only [Option.some.injEq, Prod.mk.injEq] at h
            obtain ⟨hm, hr⟩ := h
            subst hm; subst hr
            have := ih m0 r0 hrec
            simpa using congrArg (fun t => c :: t) this
    · simp only [hterm, Bool.false_eq_true, if_false] at h
      by_cases hlt : isLineTerm c
      · simp [hlt] at h
      · simp only [hlt, Bool.false_eq_true, if_false] at h
        cases hrec : matchSentence rest with
        | none => rw [hrec] at h; simp at h
        | some p =>
          obtain ⟨m0, r0⟩ := p
          rw [hrec] at h
          simp only [Option.some.injEq, Prod.mk.injEq] at h
          obtain ⟨hm, hr⟩ := h
          subst hm; subst hr
          have := ih m0 r0 hrec
          simpa using congrArg (fun t => c :: t) this

theorem filter_dropWhile_space (l : List Char) :
    (l.dropWhile isJsSpace).filter notSpace = l.filter notSpace := by
  induction l with
  | nil => rfl
  | cons c t ih =>
    by_cases h : isJsSpace c
    · have hn : notSpace c = false := by simp [notSpace, h]
      simp [List.dropWhile_cons, h, List.filter_cons, hn, ih]
    · simp [List.dropWhile_cons, h]

theorem filter_trimChars (l : List Char) :
    (trimChars l).filter notSpace = l.filter notSpace := by
  unfold trimChars
  rw [List.filter_reverse, filter_dropWhile_space, List.filter_reverse,
    filter_dropWhile_space, List.reverse_reverse]

theorem segStep_fullText (st : SegState) (newFull : List Char) :
    (segStep st newFull).fullText = newFull := by
  unfold segStep
  cases hm : matchSentence (st.buffer ++ newFull.drop st.fullText.length) with
  | none => rfl
  | some p => obtain ⟨m, r⟩ := p; rfl

theorem segStep_filter (st : SegState) (d : List Char) :
    ((segStep st (st.fullText ++ d)).emitted.flatten
        ++ (segStep st (st.fullText ++ d)).buffer).filter notSpace
      = ((st.emitted.flatten ++ st.buffer).filter notSpace) ++ d.filter notSpace := by
  unfold segStep
  rw [List.drop_left]
  cases hm : matchSentence (st.buffer ++ d) with
  | none => simp [List.filter_append, List.append_assoc]
  | some p =>
    obtain ⟨m, r⟩ := p
    have hmr : m ++ r = st.buffer ++ d := matchSentence_append _ _ _ hm
    have hfm : (m.filter notSpace) ++ (r.filter notSpace)
        = (st.buffer.filter notSpace) ++ (d.filter notSpace) := by
      rw [← List.filter_append, ← List.filter_append, hmr]
    by_cases he : trimChars m = []
    · have hm0 : m.filter notSpace = [] := by
        rw [← filter_trimChars, he]; rfl
      rw [hm0, List.nil_append] at hfm
      simp [he, List.filter_append, hfm, List.append_assoc]
    · simp only [he, if_false]
      simp only [List.filter_append, List.flatten_append, List.flatten_cons,
        List.flatten_nil, List.append_nil, filter_trimChars]
      rw [List.append_assoc, hfm, List.append_assoc]

theorem runDeltas_fullText (ds : List (List Char)) : ∀ st : SegState,
    (runDeltas st ds).fullText = st.fullText ++ ds.flatten := by
  induction ds with
  | nil => intro st; simp [runDeltas]
  | cons d ds ih =>
    intro st
    rw [runDeltas, ih, segStep_fullText]
    simp [List.append_assoc]

theorem runDeltas_filter (ds : List (List Char)) : ∀ st : SegState,
    ((runDeltas st ds).emitted.flatten ++ (runDeltas st ds).buffer).filter notSpace
      = ((st.emitted.flatten ++ st.buffer).filter notSpace) ++ ds.flatten.filter notSpace := by
  induction ds with
  | nil => intro st; simp [runDeltas]
  | cons d ds ih =>
    intro st
    rw [runDeltas, ih, segStep_filter]
    simp [List.filter_append, List.append_assoc]

theorem segFlush_filter (st : SegState) :
    ((segFlush st).flatten).filter notSpace
      = (st.emitted.flatten ++ st.buffer).filter notSpace := by
  unfold segFlush
  by_cases he : trimChars st.buffer = []
  · have hb : st.buffer.filter notSpace = [] := by
      rw [← filter_trimChars, he]; rfl
    simp [he, List.filter_append, hb]
  · simp [he, List.filter_append, filter_trimChars]

/-- C1 (amended): for every stream of appended text deltas, the sentences
emitted by the segmenter (including the final flush) contain every
non-white-space character of the final full answer exactly once, in original
order; the final state holds the full text, which is the concatenation of
the deltas.  White space adjacent to sentence boundaries is removed by the
per-sentence trim, so the concatenation of emitted sentences reproduces the
answer only up to that trimmed white space. -/
theorem segmenter_emits_every_nonspace_char_once (deltas : List (List Char)) :
    ((segFlush (runDeltas initSeg deltas)).flatten).filter notSpace
        = ((runDeltas initSeg deltas).fullText).filter notSpace
      ∧ (runDeltas initSeg deltas).fullText = deltas.flatten := by
  have hfull := runDeltas_fullText deltas initSeg
  have hfil := runDeltas_filter deltas initSeg
  constructor
  · rw [segFlush_filter, hfil, hfull]
    simp [initSeg]
  · simpa [initSeg] using hfull

/-- C1 (counterexample to the claim as stated): feeding the single update
"Hi. Bye." to the segmenter emits the sentences "Hi." and "Bye.", whose
concatenation "Hi.Bye." is missing the space of the original text, so
concatenating all emitted sentences does not reproduce the full answer
exactly. -/
theorem segmenter_concat_not_exact :
    ((segFlush (runDeltas initSeg [['H', 'i', '.', ' ', 'B', 'y', 'e', '.']])).flatten)
      ≠ ['H', 'i', '.', ' ', 'B', 'y', 'e', '.'] := by
  decide

/-! ## The audio playback queue

Model of the module state audioQueueRef, isPlayingQueueRef, audioRef and the
functions queueAudio, playNextInQueue and stopAudio.  Clips are identified
by the emission index of the sentence they were synthesised from.  A clip
enters the queue when its playTTS fetch resolves (queueAudio is called from
the synthesis completion continuation), so clips arrive in
synthesis-completion order, not in sentence-emission order.  The played
field records, in order, every clip the driver handed to the audio element.
-/

structure AudioState where
  queue : List Nat
  isPlayingQueue : Bool
  current : Option Nat
  played : List Nat
deriving DecidableEq

/-- Idle state: empty queue, no driver running, nothing played. -/
def initAudio : AudioState := ⟨[], false, none, []⟩

/-- playNextInQueue: on an empty queue stop the driver; otherwise shift the
head clip off the queue, load it into the audio element and play it. -/
def playNextInQueue (st : AudioState) : AudioState :=
  match st.queue with
  | [] => { st with isPlayingQueue := false, current := none }
  | u :: rest =>
      { queue := rest, isPlayingQueue := true, current := some u,
        played := st.played ++ [u] }

/-- queueAudio: push the clip onto the queue and start the driver if it is
not already running. -/
def queueAudio (st : AudioState) (u : Nat) : AudioState :=
  if st.isPlayingQueue then { st with queue := st.queue ++ [u] }
  else playNextInQueue { st with queue := st.queue ++ [u] }

/-- The onended / onerror / play-rejection continuation of the current clip:
advance to the next queued clip.  Only meaningful while a clip is loaded. -/
def onClipEnded (st : AudioState) : AudioState :=
  match st.current with
  | none => st
  | some _ => playNextInQueue st

/-- stopAudio: clear the queue, mark the driver stopped and pause the active
clip. -/
def stopAudio (st : AudioState) : AudioState :=
  { queue := [], isPlayingQueue := false, current := none, played := st.played }

/-- Externally visible events acting on the audio state: a playTTS call
resolving (which enqueues its clip), the current clip finishing, and the
user pressing stop. -/
inductive AudioEvent
  | synthDone (u : Nat)
  | clipEnded
  | stop
deriving DecidableEq

def audioStep (st : AudioState) : AudioEvent → AudioState
  | AudioEvent.synthDone u => queueAudio st u
  | AudioEvent.clipEnded => onClipEnded st
  | AudioEvent.stop => stopAudio st

/-- Run a sequence of audio events from the idle state. -/
def audioRun (evs : List AudioEvent) : AudioState :=
  evs.foldl audioStep initAudio

/-- Clips enqueued by a sequence of events, in arrival order (that is, in
synthesis-completion order). -/
def enqueuedClips : List AudioEvent → List Nat
  | [] => []
  | AudioEvent.synthDone u :: es => u :: enqueuedClips es
  | _ :: es => enqueuedClips es

/-- Whether a stop event occurs in the sequence. -/
def hasStop : List AudioEvent → Bool
  | [] => false
  | AudioEvent.stop :: _ => true
  | _ :: es => hasStop es

theorem playNextInQueue_order (st : AudioState) :
    (playNextInQueue st).played ++ (playNextInQueue st).queue
      = st.played ++ st.queue := by
  unfold playNextInQueue
  cases st.queue with
  | nil => rfl
  | cons u rest => simp [List.append_assoc]

theorem queueAudio_order (st : AudioState) (u : Nat) :
    (queueAudio st u).played ++ (queueAudio st u).queue
      = st.played ++ (st.queue ++ [u]) := by
  unfold queueAudio
  by_cases h : st.isPlayingQueue
  · simp [h]
  · simp only [h, if_false, Bool.false_eq_true]
    rw [playNextInQueue_order]

theorem onClipEnded_order (st : AudioState) :
    (onClipEnded st).played ++ (onClipEnded st).queue = st.played ++ st.queue := by
  unfold onClipEnded
  cases st.current with
  | none => rfl
  | some u => rw [playNextInQueue_order]

theorem audioFold_order (evs : List AudioEvent) : ∀ st : AudioState,
    hasStop evs = false →
    (evs.foldl audioStep st).played ++ (evs.foldl audioStep st).queue
      = st.played ++ (st.queue ++ enqueuedClips evs) := by
  induction evs with
  | nil => intro st _; simp [enqueuedClips]
  | cons e es ih =>
    intro st hns
    cases e with
    | synthDone u =>
      have hns2 : hasStop es = false := by simpa [hasStop] using hns
      rw [List.foldl_cons]
      have hstep : audioStep st (AudioEvent.synthDone u) = queueAudio st u := rfl
      rw [hstep, ih _ hns2]
      have h1 := queueAudio_order st u
      have h2 : (queueAudio st u).queue ++ enqueuedClips es
          = ((queueAudio st u).queue ++ enqueuedClips es) := rfl
      unfold queueAudio at *
      by_cases h : st.isPlayingQueue
      · simp [h, enqueuedClips, List.append_assoc]
      · simp only [h, if_false, Bool.false_eq_true] at *
        unfold playNextInQueue
        cases hq : st.queue with
        | nil => simp [enqueuedClips, List.append_assoc]
        | cons v rest => simp [enqueuedClips, List.append_assoc]
    | clipEnded =>
      have hns2 : hasStop es = false := by simpa [hasStop] using hns
      rw [List.foldl_cons]
      have hstep : audioStep st AudioEvent.clipEnded = onClipEnded st := rfl
      rw [hstep, ih _ hns2]
      unfold onClipEnded
      cases st.current with
      | none => simp [enqueuedClips]
      | some u =>
        unfold playNextInQueue
        cases hq : st.queue with
        | nil => simp [enqueuedClips]
        | cons v rest => simp [enqueuedClips, List.append_assoc]
    | stop => simp [hasStop] at hns

/-- C2 (amended): the playback queue is first-in-first-out with respect to
clip arrival: the clips played so far, followed by the clips still queued,
equal exactly the clips enqueued so far in arrival order.  Since queueAudio
is invoked when a synthesis call completes, arrival order is
synthesis-completion order — playback follows completion order, and it
follows sentence-emission order only when synthesis calls complete in
emission order. -/
theorem playback_follows_arrival_order (evs : List AudioEvent)
    (h : hasStop evs = false) :
    (audioRun evs).played ++ (audioRun evs).queue = enqueuedClips evs := by
  unfold audioRun
  rw [audioFold_order evs initAudio h]
  rfl

/-- Witness for the FIFO theorem at a concrete event sequence. -/
theorem playback_follows_arrival_order_witness :
    hasStop [AudioEvent.synthDone 2, AudioEvent.synthDone 1,
        AudioEvent.clipEnded] = false
      ∧ (audioRun [AudioEvent.synthDone 2, AudioEvent.synthDone 1,
            AudioEvent.clipEnded]).played
          ++ (audioRun [AudioEvent.synthDone 2, AudioEvent.synthDone 1,
            AudioEvent.clipEnded]).queue
        = enqueuedClips [AudioEvent.synthDone 2, AudioEvent.synthDone 1,
            AudioEvent.clipEnded] :=
  ⟨by decide,
   playback_follows_arrival_order
     [AudioEvent.synthDone 2, AudioEvent.synthDone 1, AudioEvent.clipEnded]
     (by decide)⟩

/-- C2 (counterexample to the claim as stated): sentences are emitted in
order 1 then 2, but the synthesis call for sentence 2 completes first, so
its clip is enqueued first and played first: the playback order is [2, 1],
not the emission order [1, 2].  The queue preserves arrival order, and
arrival order is synthesis-call completion order. -/
theorem playback_order_not_emission_order :
    (audioRun [AudioEvent.synthDone 2, AudioEvent.synthDone 1,
        AudioEvent.clipEnded, AudioEvent.clipEnded]).played = [2, 1]
      ∧ ([2, 1] : List Nat) ≠ [1, 2] := by
  constructor
  · decide
  · decide

/-- C8 (amended): stopAudio empties the pending queue, stops the driver and
halts the loaded clip, never touches what has already played, and calling it
twice in a row is idempotent and leaves the queue empty both times.  Audio
from synthesis calls that complete after the stop is NOT discarded, however:
a later queueAudio finds the driver stopped and starts playing immediately
(see the companion counterexample). -/
theorem stop_audio_clears_and_idempotent (st : AudioState) :
    (stopAudio st).queue = []
      ∧ (stopAudio st).current = none
      ∧ (stopAudio st).isPlayingQueue = false
      ∧ (stopAudio st).played = st.played
      ∧ stopAudio (stopAudio st) = stopAudio st := by
  refine ⟨rfl, rfl, rfl, rfl, rfl⟩

/-- C8 (counterexample to the claim as stated): sentence 1 is enqueued and
starts playing; the user presses stop; then the in-flight synthesis of
sentence 2 completes.  Its queueAudio call finds the driver stopped and
starts playback, so clip 2 is played — the audio of a synthesis request
still in flight at stop time is not discarded. -/
theorem stop_audio_plays_late_synthesis :
    (audioRun [AudioEvent.synthDone 1, AudioEvent.stop,
        AudioEvent.synthDone 2]).played = [1, 2]
      ∧ 2 ∈ (audioRun [AudioEvent.synthDone 1, AudioEvent.stop,
          AudioEvent.synthDone 2]).played := by
  constructor
  · decide
  · decide

/-! ## Turn-index assignment across a session

debate-start fixes turnIndex = 0, upserts the user turn at index 0 and the
AI turn at index 1, and returns turn_index = turnIndex + 1.  The client
stores the returned value.  debate-continue receives the client value t,
upserts the user turn at index t and the AI turn at index t + 1, and its
terminal event carries turn_index = t + 1, which the client stores for the
next exchange.  Pinecone upsert identifiers are sessionId ++ "::turn::" ++
index, so equal indices address the same stored vector. -/

/-- Indices assigned by debate-start: user turn, then AI turn. -/
def startAssignedIndices : List Nat := [0, 0 + 1]

/-- Turn index returned by debate-start to the client. -/
def startReturnedTurnIndex : Nat := 0 + 1

/-- Indices assigned by one debate-continue call given the client turn
index: user turn at t, AI turn at t + 1. -/
def continueAssignedIndices (t : Nat) : List Nat := [t, t + 1]

/-- Turn index carried by the debate-continue terminal event, which the
client stores via setTurnIndex. -/
def continueReturnedTurnIndex (t : Nat) : Nat := t + 1

/-- All turn indices assigned over a session with k continued exchanges,
paired with the client turn index after them. -/
def sessionTurnIds : Nat → List Nat × Nat
  | 0 => (startAssignedIndices, startReturnedTurnIndex)
  | Nat.succ k =>
      let p := sessionTurnIds k
      (p.1 ++ continueAssignedIndices p.2, continueReturnedTurnIndex p.2)

/-- C3 (bug evidence): with one continued exchange after the start, the
assigned turn indices are [0, 1, 1, 2] — the continued user turn reuses
index 1, the index of the opening AI reply, so the upsert overwrites the
stored opening AI turn; and the client turn index advances by exactly 1 per
exchange, not 2.  This contradicts the invariant that turn indices are
contiguous, strictly increasing and never reused, with the assistant answer
to user turn n stored at n + 1. -/
theorem turn_index_reuse_bug :
    (sessionTurnIds 1).1 = [0, 1, 1, 2]
      ∧ ¬ (sessionTurnIds 1).1.Nodup
      ∧ (∀ k, (sessionTurnIds (k + 1)).2 = (sessionTurnIds k).2 + 1) := by
  refine ⟨by decide, by decide, ?_⟩
  intro k
  rfl

/-! ## The dual-scope retriever

debate-continue issues the corpus query (topK 7, empty namespace — the
global corpus) and the session query (topK 3, namespace = session id) with
Promise.all, then throws "Pinecone query failed" unless both responses are
ok.  A query response is modelled as Option (List CMatch): none when the
HTTP response is not ok (or the fetch rejected), some matches otherwise. -/

/-- Metadata carried by a Pinecone match. -/
structure MatchMeta where
  title : Option String
  summary : Option String
  page : Option Nat
  date : Option String
  url : Option String
  text : Option String
deriving DecidableEq

/-- One Pinecone match: id, relevance score (numeric payload, modelled as an
integer) and optional metadata. -/
structure CMatch where
  id : String
  score : Int
  metadata : Option MatchMeta
deriving DecidableEq

/-- Shape of one Pinecone query request. -/
structure PineconeQuery where
  topK : Nat
  includeMetadata : Bool
  ns : String
deriving DecidableEq

/-- Corpus-scope query issued by debate-continue. -/
def corpusQuery : PineconeQuery := ⟨7, true, ""⟩

/-- Session-scope query issued by debate-continue. -/
def sessionQuery (sessionId : String) : PineconeQuery := ⟨3, true, sessionId⟩

/-- Joint result of the two queries: ok only when both responses are ok,
otherwise the single error that aborts the turn. -/
def dualRetrieve (corpusRes sessionRes : Option (List CMatch)) :
    Except String (List CMatch × List CMatch) :=
  match corpusRes, sessionRes with
  | some c, some s => Except.ok (c, s)
  | _, _ => Except.error "Pinecone query failed"

/-- Whether an Except value is a success. -/
def exceptOk {α : Type} : Except String α → Bool
  | Except.ok _ => true
  | Except.error _ => false

/-- C4: the two scope queries are issued together (joined by Promise.all)
with corpus topK 7 on the global namespace and session topK 3 on the
session namespace, and the retrieval succeeds exactly when both underlying
queries succeed; any success carries both scope results, so there is no
partial-success mode in which the turn proceeds with one scope only. -/
theorem dual_scope_retrieval_all_or_nothing :
    corpusQuery.topK = 7
      ∧ corpusQuery.ns = ""
      ∧ (∀ sid, (sessionQuery sid).topK = 3 ∧ (sessionQuery sid).ns = sid
          ∧ (sessionQuery sid).topK < corpusQuery.topK)
      ∧ (∀ c s, exceptOk (dualRetrieve c s) = (c.isSome && s.isSome))
      ∧ (∀ c s cm sm,
          dualRetrieve c s = Except.ok (cm, sm) ↔ (c = some cm ∧ s = some sm)) := by
  refine ⟨rfl, rfl, fun sid => ⟨rfl, rfl, by norm_num [sessionQuery, corpusQuery]⟩, ?_, ?_⟩
  · intro c s
    cases c <;> cases s <;> rfl
  · intro c s cm sm
    cases c <;> cases s <;> simp [dualRetrieve]

/-! ## Optimistic conversation update and rollback

handleSendMessage appends the user message and an empty assistant
placeholder, remembers aiMessageIndex = conversation.length + 1 (computed
from the pre-turn conversation), overwrites that index with the growing
full text on every incremental event, and on any error removes the last two
entries with slice(0, -2). -/

/-- One chat message. -/
structure Message where
  role : String
  content : String
deriving DecidableEq

/-- Optimistic append of the submitted user message and the assistant
placeholder. -/
def optimisticAppend (conv : List Message) (text : String) : List Message :=
  conv ++ [⟨"user", text⟩, ⟨"assistant", ""⟩]

/-- Index at which the assistant placeholder is updated, computed from the
pre-turn conversation length. -/
def aiMessageIndexOf (conv : List Message) : Nat := conv.length + 1

/-- Progressive update of the assistant message with the current full
text. -/
def updateAssistantAt (idx : Nat) (conv : List Message) (full : String) :
    List Message :=
  conv.set idx ⟨"assistant", full⟩

/-- Error rollback: slice(0, -2) removes the last two entries. -/
def rollbackTurn (conv : List Message) : List Message :=
  conv.take (conv.length - 2)

theorem set_snoc_two (pre : List Message) (u a x : Message) :
    (pre ++ [u, a]).set (pre.length + 1) x = pre ++ [u, x] := by
  induction pre with
  | nil => rfl
  | cons p ps ih =>
    simp only [List.cons_append, List.length_cons, List.set]
    simp only [List.cons.injEq, true_and]
    exact ih

theorem updates_shape (pre : List Message) (u a : Message)
    (fulls : List String) :
    ∃ x, fulls.foldl (updateAssistantAt (pre.length + 1)) (pre ++ [u, a])
        = pre ++ [u, x] := by
  induction fulls generalizing a with
  | nil => exact ⟨a, rfl⟩
  | cons f fs ih =>
    rw [List.foldl_cons]
    show ∃ x, fs.foldl _ (updateAssistantAt (pre.length + 1) (pre ++ [u, a]) f) = _
    rw [updateAssistantAt, set_snoc_two]
    exact ih ⟨"assistant", f⟩

/-- C5: whatever sequence of incremental full-text updates was applied to
the assistant placeholder before the failure, the rollback removes exactly
the optimistic user message and the placeholder, restoring the conversation
to its pre-turn state. -/
theorem failed_turn_rolls_back_conversation (pre : List Message)
    (text : String) (fulls : List String) :
    rollbackTurn (fulls.foldl (updateAssistantAt (aiMessageIndexOf pre))
        (optimisticAppend pre text)) = pre := by
  obtain ⟨x, hx⟩ := updates_shape pre ⟨"user", text⟩ ⟨"assistant", ""⟩ fulls
  rw [optimisticAppend, aiMessageIndexOf, hx, rollbackTurn]
  simp

/-! ## Prompt assembly in debate-continue

The server builds corpusContext by numbering the corpus matches
"[Source 1]", "[Source 2]", ... in retrieval order, sessionContext from the
session matches as unlabeled previous-turn lines, conversationSummary from
the last six history messages, and a system prompt embedding the citation
contract.  Template-literal text is reproduced verbatim, split at the
interpolation points. -/

/-- The summary shown for a match: metadata.summary with the JavaScript
or-default, where a missing field and an empty string both fall back. -/
def summaryOf (m : CMatch) : String :=
  match m.metadata with
  | none => "No summary available"
  | some md =>
      match md.summary with
      | none => "No summary available"
      | some s => if s = "" then "No summary available" else s

/-- One numbered corpus context line: match at zero-based position idx is
labelled with ordinal idx + 1. -/
def sourceLine (idx : Nat) (m : CMatch) : String :=
  "[Source " ++ toString (idx + 1) ++ "]: " ++ summaryOf m

/-- The corpus context lines, in retrieval order. -/
def corpusLines (ms : List CMatch) : List String :=
  ms.enum.map (fun p => sourceLine p.1 p.2)

/-- The corpus context block (lines joined by blank lines). -/
def corpusContext (ms : List CMatch) : String :=
  String.intercalate "\n\n" (corpusLines ms)

/-- Raw text of a session match, defaulting to the empty string. -/
def sessionText (m : CMatch) : String :=
  match m.metadata with
  | none => ""
  | some md =>
      match md.text with
      | none => ""
      | some t => t

/-- One unlabeled session context line. -/
def sessionLine (m : CMatch) : String :=
  "[Previous Turn]: " ++ sessionText m

/-- The session context block. -/
def sessionContext (ms : List CMatch) : String :=
  String.intercalate "\n" (ms.map sessionLine)

/-- The slice(-6) window of conversation history: the last six messages
(three exchanges), or the whole history when it is shorter. -/
def conversationWindow (hist : List Message) : List Message :=
  hist.drop (hist.length - 6)

/-- One line of the conversation summary. -/
def messageLine (m : Message) : String :=
  (if m.role = "user" then "User" else "AI") ++ ": " ++ m.content

/-- The conversation summary block built from the windowed history. -/
def conversationSummary (hist : List Message) : String :=
  String.intercalate "\n" ((conversationWindow hist).map messageLine)

/-- Opening of the system prompt, up to and including the list of legal
citation ordinals. -/
def promptRulesA (n : Nat) : String :=
  "You are an expert debater engaged in an ongoing debate.\n\nCRITICAL RULES:\n- You have access to "
    ++ toString n
    ++ " sources\n- ONLY cite sources that exist: [Source 1] through [Source "
    ++ toString n ++ "]\n"

/-- The explicit instruction that no ordinal greater than the number of
corpus matches may be cited. -/
def noHigherInstr (n : Nat) : String :=
  "- NEVER reference source numbers higher than " ++ toString n

/-- Remaining fixed rule text between the citation-bound instruction and
the corpus-count interpolation. -/
def promptRulesB : String :=
  "\n- Use the retrieved context and conversation history, citing sources as [Source N] when using them\n- If the retrieved sources are insufficient or don\x27t provide accurate information, you may use your general knowledge\n- Always cite sources when using information from them: e.g., \"Research indicates [Source 2] that...\" or \"[Source 5] demonstrates...\"\n- When using general knowledge (not from sources), do not cite a source number\n- Address the user\x27s latest point directly\n- Build on previous arguments when relevant\n- CRITICAL: Your response MUST be between 100-150 words. Count your words carefully.\n\nRetrieved Corpus Context (all "

/-- Everything after the citation-bound instruction: remaining rules, the
three context blocks and the session configuration. -/
def promptTail (n : Nat) (corpusCtx sessCtx convSummary category expLabel aiLevel : String) :
    String :=
  promptRulesB ++ toString n ++ " sources):\n" ++ corpusCtx
    ++ "\n\nRecent Session Context:\n" ++ sessCtx
    ++ "\n\nRecent Conversation:\n" ++ convSummary
    ++ "\n\nDebate Topic: " ++ category
    ++ "\nUser Experience: " ++ expLabel
    ++ "\nAI Difficulty: " ++ aiLevel

/-- The full system prompt of debate-continue. -/
def systemPrompt (ms sess : List CMatch) (hist : List Message)
    (category expLabel aiLevel : String) : String :=
  promptRulesA ms.length ++ noHigherInstr ms.length
    ++ promptTail ms.length (corpusContext ms) (sessionContext sess)
        (conversationSummary hist) category expLabel aiLevel

theorem enumFrom_lookup {α : Type} (l : List α) :
    ∀ n i, (List.enumFrom n l).get? i = (l.get? i).map (fun a => (n + i, a)) := by
  induction l with
  | nil => intro n i; simp
  | cons a t ih =>
    intro n i
    cases i with
    | zero => simp [List.enumFrom]
    | succ j =>
      simp only [List.enumFrom, List.get?_cons_succ]
      rw [ih (n + 1) j]
      cases t.get? j with
      | none => rfl
      | some v =>
        show some (n + 1 + j, v) = some (n + (j + 1), v)
        have h : n + 1 + j = n + (j + 1) := by omega
        rw [h]

/-- C6: the prompt assembler labels the corpus match at zero-based position
i with ordinal i + 1, so the N matches carry exactly the labels
[Source 1] .. [Source N] in retrieval order; the system prompt contains the
explicit instruction never to cite an ordinal greater than N; and the
conversation summary is built from exactly the last six history messages —
a suffix of the history of length min 6 (length hist) — and no earlier
ones. -/
theorem prompt_assembly_contract (ms sess : List CMatch) (hist : List Message)
    (category expLabel aiLevel : String) :
    (∀ i, (corpusLines ms).get? i
        = (ms.get? i).map (fun m => "[Source " ++ toString (i + 1) ++ "]: " ++ summaryOf m))
      ∧ (∃ a b, systemPrompt ms sess hist category expLabel aiLevel
          = a ++ noHigherInstr ms.length ++ b)
      ∧ (∃ earlier, hist = earlier ++ conversationWindow hist
          ∧ (conversationWindow hist).length = min 6 hist.length)
      ∧ conversationSummary hist
          = String.intercalate "\n" ((conversationWindow hist).map messageLine) := by
  refine ⟨?_, ?_, ?_, rfl⟩
  · intro i
    unfold corpusLines
    rw [List.get?_map, List.enum, enumFrom_lookup]
    cases ms.get? i <;> simp [sourceLine]
  · exact ⟨promptRulesA ms.length,
      promptTail ms.length (corpusContext ms) (sessionContext sess)
        (conversationSummary hist) category expLabel aiLevel, rfl⟩
  · refine ⟨hist.take (hist.length - 6), ?_, ?_⟩
    · rw [conversationWindow, List.take_append_drop]
    · rw [conversationWindow, List.length_drop]
      omega

/-! ## The server SSE forwarder

debate-continue reads the upstream stream line by line; a line that does
not start with the data marker, the [DONE] marker, a payload that fails
JSON.parse, and a payload without a text string are all skipped; a
non-empty text delta is appended to fullAnswer and forwarded as an event
carrying the delta and the accumulated fullText. -/

inductive SSELine
  | other
  | doneMark
  | invalidJson
  | noTextField
  | textChunk (t : List Char)
deriving DecidableEq

/-- Forwarder state: the accumulated answer and the events already sent to
the client, each a pair of the delta and the fullText at that point. -/
structure ForwardState where
  fullAnswer : List Char
  events : List (List Char × List Char)
deriving DecidableEq

def forwardLine (st : ForwardState) : SSELine → ForwardState
  | SSELine.textChunk t =>
      if t = [] then st
      else { fullAnswer := st.fullAnswer ++ t,
             events := st.events ++ [(t, st.fullAnswer ++ t)] }
  | _ => st

/-- Run the forwarder over the upstream lines from the empty answer. -/
def forwardRun (lines : List SSELine) : ForwardState :=
  lines.foldl forwardLine ⟨[], []⟩

/-- Chain predicate on forwarded events: starting from acc, each event
carries a non-empty delta, its fullText extends the previous fullText by
exactly that delta, and dropping the previous length recovers the delta
(the computation the client performs). -/
def eventsChain : List Char → List (List Char × List Char) → Prop
  | _, [] => True
  | acc, (t, f) :: rest =>
      t ≠ [] ∧ f = acc ++ t ∧ f.drop acc.length = t ∧ eventsChain f rest

theorem eventsChain_snoc (evs : List (List Char × List Char)) :
    ∀ acc t, t ≠ [] → eventsChain acc evs →
    eventsChain acc (evs ++ [(t, (acc ++ (evs.map Prod.fst).flatten) ++ t)]) := by
  induction evs with
  | nil =>
    intro acc t ht _
    refine ⟨ht, ?_, ?_, trivial⟩
    · simp
    · simp
  | cons e rest ih =>
    obtain ⟨t0, f0⟩ := e
    intro acc t ht hch
    obtain ⟨ht0, hf0, hd0, hrest⟩ := hch
    refine ⟨ht0, hf0, hd0, ?_⟩
    have heq : acc ++ (List.map Prod.fst ((t0, f0) :: rest)).flatten
        = f0 ++ (rest.map Prod.fst).flatten := by
      rw [List.map_cons, List.flatten_cons, ← List.append_assoc, ← hf0]
    rw [heq]
    exact ih f0 t ht hrest

theorem forwardRun_chain_aux (lines : List SSELine) : ∀ st : ForwardState,
    eventsChain [] st.events →
    st.fullAnswer = (st.events.map Prod.fst).flatten →
    eventsChain [] (lines.foldl forwardLine st).events
      ∧ (lines.foldl forwardLine st).fullAnswer
          = ((lines.foldl forwardLine st).events.map Prod.fst).flatten := by
  induction lines with
  | nil => intro st h1 h2; exact ⟨h1, h2⟩
  | cons l ls ih =>
    intro st h1 h2
    rw [List.foldl_cons]
    cases l with
    | other => exact ih st h1 h2
    | doneMark => exact ih st h1 h2
    | invalidJson => exact ih st h1 h2
    | noTextField => exact ih st h1 h2
    | textChunk t =>
      by_cases ht : t = []
      · have hid : forwardLine st (SSELine.textChunk t) = st := by
          simp [forwardLine, ht]
        rw [hid]
        exact ih st h1 h2
      · have hstep : forwardLine st (SSELine.textChunk t)
            = ⟨st.fullAnswer ++ t, st.events ++ [(t, st.fullAnswer ++ t)]⟩ := by
          simp [forwardLine, ht]
        rw [hstep]
        apply ih
        · have hc := eventsChain_snoc st.events [] t ht h1
          simpa [h2] using hc
        · simp [h2, List.map_append, List.flatten_append]

/-- C7: in the stream forwarded by debate-continue, the incremental events
form a chain starting from the empty string: every event carries a
non-empty delta and a fullText equal to the previous fullText with that
delta appended, so the client computation of the new suffix by length
difference recovers exactly the delta; and the accumulated fullAnswer (the
fullText of the terminal event) is the concatenation of all deltas. -/
theorem stream_fulltext_monotone_growth (lines : List SSELine) :
    eventsChain [] (forwardRun lines).events
      ∧ (forwardRun lines).fullAnswer
          = ((forwardRun lines).events.map Prod.fst).flatten :=
  forwardRun_chain_aux lines ⟨[], []⟩ trivial rfl

/-! ## The client SSE consumer

The client splits the response into lines, keeps those starting with the
data marker, skips payloads whose JSON.parse throws, stores a done payload
as metadata, and processes a truthy fullText payload through the sentence
segmenter; payloads with neither field are ignored. -/

inductive ClientLine
  | other
  | invalidJson
  | doneEvent (turnIndex : Nat) (retrieved : List CMatch)
  | fullTextEvent (f : List Char)
  | noUsefulField
deriving DecidableEq

/-- Client-side stream state: the segmenter state and the terminal
metadata, when it has arrived. -/
structure ClientStreamState where
  seg : SegState
  metadata : Option (Nat × List CMatch)
deriving DecidableEq

def clientLineStep (st : ClientStreamState) : ClientLine → ClientStreamState
  | ClientLine.doneEvent t r => { st with metadata := some (t, r) }
  | ClientLine.fullTextEvent f =>
      if f = [] then st else { st with seg := segStep st.seg f }
  | _ => st

def initClientStream : ClientStreamState := ⟨initSeg, none⟩

def clientRun (lines : List ClientLine) : ClientStreamState :=
  lines.foldl clientLineStep initClientStream

/-- Outcome of the generation stage of a turn: the turn aborts if the
upstream stream cannot be opened (the response is not ok), and otherwise
processes every line without a failure path. -/
def turnStream (llmOk : Bool) (lines : List SSELine) :
    Except String ForwardState :=
  if llmOk then Except.ok (forwardRun lines) else Except.error "LLM generation failed"

/-- C10: a mid-stream data line whose payload is not valid JSON, or whose
payload lacks the expected text field, is skipped by the server forwarder
without terminating the stream or altering the accumulated text, and the
analogous malformed or useless payloads are skipped by the client consumer;
the generation stage of a turn fails exactly when the upstream stream
cannot be opened, never because of a malformed mid-stream line. -/
theorem malformed_stream_line_skipped :
    (∀ pre post, forwardRun (pre ++ SSELine.invalidJson :: post)
        = forwardRun (pre ++ post))
      ∧ (∀ pre post, forwardRun (pre ++ SSELine.noTextField :: post)
          = forwardRun (pre ++ post))
      ∧ (∀ pre post, clientRun (pre ++ ClientLine.invalidJson :: post)
          = clientRun (pre ++ post))
      ∧ (∀ pre post, clientRun (pre ++ ClientLine.noUsefulField :: post)
          = clientRun (pre ++ post))
      ∧ (∀ llmOk lines, exceptOk (turnStream llmOk lines) = llmOk) := by
  refine ⟨?_, ?_, ?_, ?_, ?_⟩
  · intro pre post
    unfold forwardRun
    rw [List.foldl_append, List.foldl_append, List.foldl_cons]
    rfl
  · intro pre post
    unfold forwardRun
    rw [List.foldl_append, List.foldl_append, List.foldl_cons]
    rfl
  · intro pre post
    unfold clientRun
    rw [List.foldl_append, List.foldl_append, List.foldl_cons]
    rfl
  · intro pre post
    unfold clientRun
    rw [List.foldl_append, List.foldl_append, List.foldl_cons]
    rfl
  · intro llmOk lines
    cases llmOk <;> rfl

/-! ## The session memory writer

After the terminal event, debate-continue upserts the user turn into the
session namespace under id sessionId ++ "::turn::" ++ turnIndex, reusing
the query embedding computed at the start of the turn, and then calls the
embedding service once more — on the finalized answer — and upserts the AI
turn under id sessionId ++ "::turn::" ++ (turnIndex + 1).  Metadata carries
role, raw text, turn index and an ISO timestamp. -/

/-- Metadata attached to an upserted turn vector. -/
structure TurnMeta where
  role : String
  text : String
  turnIndex : Nat
  timestamp : String
deriving DecidableEq

/-- One Pinecone upsert request: vector id, embedding values, metadata and
target namespace. -/
structure UpsertRequest where
  vectorId : String
  values : List Int
  meta : TurnMeta
  ns : String
deriving DecidableEq

/-- Deterministic turn identifier. -/
def turnIdOf (sessionId : String) (i : Nat) : String :=
  sessionId ++ "::turn::" ++ toString i

/-- The two background upserts of the memory-write stage, given the
embedding service embedF, the query embedding computed at the start of the
turn, and the observed timestamps.  The third component is the log of
embedding-service calls performed by this stage: the code calls the
service exactly once here, on the finalized answer. -/
def memoryWrites (embedF : String → List Int) (sessionId : String)
    (turnIndex : Nat) (queryEmbedding : List Int)
    (userReply answer ts1 ts2 : String) :
    UpsertRequest × UpsertRequest × List String :=
  (⟨turnIdOf sessionId turnIndex, queryEmbedding,
      ⟨"user", userReply, turnIndex, ts1⟩, sessionId⟩,
   ⟨turnIdOf sessionId (turnIndex + 1), embedF answer,
      ⟨"assistant", answer, turnIndex + 1, ts2⟩, sessionId⟩,
   [answer])

/-- C9: the memory writer upserts the user turn under
sessionId ++ "::turn::" ++ turnIndex with role user, the raw reply text,
the turn index and a timestamp, reusing the already-computed query
embedding; it upserts the assistant turn under the successor index with
role assistant and the finalized answer text, using a fresh embedding of
the answer; both go to the session-private namespace; and the stage makes
exactly one embedding call, on the answer. -/
theorem session_memory_writer_contract (embedF : String → List Int)
    (sessionId : String) (turnIndex : Nat) (queryEmbedding : List Int)
    (userReply answer ts1 ts2 : String) :
    (memoryWrites embedF sessionId turnIndex queryEmbedding
        userReply answer ts1 ts2).1
        = ⟨sessionId ++ "::turn::" ++ toString turnIndex, queryEmbedding,
            ⟨"user", userReply, turnIndex, ts1⟩, sessionId⟩
      ∧ (memoryWrites embedF sessionId turnIndex queryEmbedding
          userReply answer ts1 ts2).2.1
          = ⟨sessionId ++ "::turn::" ++ toString (turnIndex + 1), embedF answer,
              ⟨"assistant", answer, turnIndex + 1, ts2⟩, sessionId⟩
      ∧ (memoryWrites embedF sessionId turnIndex queryEmbedding
          userReply answer ts1 ts2).2.2 = [answer] :=
  ⟨rfl, rfl, rfl⟩

end DebateCraft
